import Mathlib

/-!
Verification of the module-resolution core (`Coordinator.cpp`) of the
interface-definition-language compiler.

The embedding translates `src/Coordinator.cpp` into Lean:

* `FQName` is the fully-qualified-name value type (package, version with its
  leading version marker, local name).  Its parsing/validation lives outside
  the sources, so `FQName.isFullyQualified` is modelled from the spec's
  invariant that fully-qualified identifiers carry non-empty package, version
  and name.
* `Coordinator` holds the two parallel registry vectors
  (`mPackageRootPaths`, `mPackageRoots`).
* `Coordinator.parse` is the resolution engine (lines 24-108).  C++ process
  aborts raised by `CHECK`-style assertions are represented by the `Res.abort`
  outcome; every other path returns `Res.ok`.  The mutable members `mCache`
  and the `new AST` allocations are threaded through an explicit `CState`
  (cache, the log of paths handed to the external parser, and an allocation
  counter giving every `AST` object a distinct identity).  The external parser
  `parseFile` is a pure oracle from paths to optional file contents.
* `Coordinator.findPackageRoot` / `Coordinator.getPackagePath` are the
  registry scan and the path builder (lines 110-183).
* `Coordinator.lookupType` is the cross-module type lookup (lines 185-227);
  the per-module symbol table `AST::lookupTypeInternal` is outside the
  sources, so it is modelled from the spec's module boundary
  `lookupLocal(name) -> Option TypeHandle` as an association-list lookup
  carried inside each `ASTData`.

The only recursive call inside `Coordinator::parse` resolves the implicit
`types` sibling, whose local name is `"types"`, and the `"types"` branch makes
no recursive call at all; the recursion depth is therefore bounded by one and
`parse` is written as `parseCore` (the body, with the recursive resolution of
the implicit import abstracted as a parameter) instantiated once.  A second,
spec-modelled engine `parseI` additionally resolves each of a module's
explicit imports recursively (in the repository that happens through the external
parser calling back into `Coordinator::parse`, code that is not part of the
sources here); it is used to settle the circular-import termination claim.
-/

/-- Fully-qualified name: package, version (with its leading marker, e.g.
`"@1.0"`), and local name. -/
structure FQName where
  package : String
  version : String
  name : String
deriving DecidableEq

/-- Modelled from the spec: `FQName::isFullyQualified` is outside the sources;
the spec's invariant is that fully-qualified identifiers always carry
non-empty package, version, and name. -/
def FQName.isFullyQualified (f : FQName) : Bool :=
  !(f.package == "") && !(f.version == "") && !(f.name == "")

/-- Contents of a successfully parsed file, as exposed by the external parser:
the declared package/version (`ast->package()`), the declared interface name
if the file declares an interface (`ast->isInterface`), and the module's type
table (the module boundary `lookupLocal`, modelled from the spec since
`AST.h` is outside the sources). -/
structure FileData where
  pkg : String
  ver : String
  iface : Option String
  typeTable : List (String × Nat)
deriving DecidableEq

/-- A parsed `AST` object: the identity of the `new AST(this)` allocation plus
the parsed file contents. -/
structure ASTData where
  id : Nat
  pkg : String
  ver : String
  iface : Option String
  typeTable : List (String × Nat)
deriving DecidableEq

/-- The external `parseFile` collaborator, as a pure oracle from file paths to
optional parsed contents (`none` is a parse failure). -/
def Oracle : Type := String → Option FileData

/-- Outcome of an operation that can hit a fatal `CHECK` assertion: `ok` is a
normal return, `abort` is a process abort. -/
inductive Res (α : Type) where
  | ok (val : α)
  | abort
deriving DecidableEq

/-- The module cache `mCache`: an association list keyed by `FQName`; the value `none` is the
null marker the code stores both as the in-progress placeholder and after a
failed resolution. -/
def Cache : Type := List (FQName × Option ASTData)

instance : DecidableEq Cache := by
  unfold Cache
  infer_instance

/-- Cache lookup (`mCache.indexOfKey` + `mCache.valueAt`): `none` means no
entry, `some v` the stored value. -/
def cacheGet : Cache → FQName → Option (Option ASTData)
  | [], _ => none
  | (k, v) :: t, f => if k = f then some v else cacheGet t f

/-- Insert-or-replace, `mCache.add`: replacing the value if the key is present (the
underlying sorted keyed vector replaces equal keys). -/
def cacheAdd : Cache → FQName → Option ASTData → Cache
  | [], f, v => [(f, v)]
  | (k, w) :: t, f, v => if k = f then (f, v) :: t else (k, w) :: cacheAdd t f v

/-- Mutable coordinator state: the cache, the paths handed to the external
parser so far (in call order), and the allocation counter for `AST` object
identities. -/
structure CState where
  cache : Cache
  parserCalls : List String
  nextId : Nat
deriving DecidableEq

/-- Registry configuration (`mPackageRootPaths` and `mPackageRoots`, two
parallel vectors supplied at construction). -/
structure Coordinator where
  packageRootPaths : List String
  packageRoots : List String
deriving DecidableEq

/-- Substring containment, the `std::string::find(needle) != npos` test:
`needle` occurs somewhere in `hay`. -/
def occursIn : List Char → List Char → Bool
  | needle, [] => needle.isEmpty
  | needle, c :: t => needle.isPrefixOf (c :: t) || occursIn needle t

/-- Scan in the style of `std::find`, returning the index of the first element
satisfying the predicate. -/
def findIdxO {α : Type} (p : α → Bool) : List α → Option Nat
  | [] => none
  | a :: t => if p a then some 0 else (findIdxO p t).map (· + 1)

/-- Translation of `Coordinator::findPackageRoot` (lines 110-133): `CHECK` the package and
version are non-empty, then scan `mPackageRoots` for the first entry that
occurs as a substring of the package; a failed scan hits
`CHECK(it != mPackageRoots.end())`, a process abort. -/
def Coordinator.findPackageRoot (co : Coordinator) (fq : FQName) : Res Nat :=
  if fq.package == "" then .abort
  else if fq.version == "" then .abort
  else
    match findIdxO (fun r => occursIn r.data fq.package.data) co.packageRoots with
    | some i => .ok i
    | none => .abort

/-- Last character is `c` (the `(*--s.end())` test; an empty string, undefined
behaviour in the original, is treated as not ending in `c`). -/
def endsInChar (s : String) (c : Char) : Bool :=
  match s.data.getLast? with
  | some d => d == c
  | none => false

/-- Normalize the registry prefix to end with a dot (lines 149-151). -/
def normPfx (p : String) : String :=
  if endsInChar p '.' then p else ⟨p.data ++ ['.']⟩

/-- Normalize the package root to end with a path separator
(lines 153-155). -/
def normRoot (r : String) : String :=
  if endsInChar r '/' then r else ⟨r.data ++ ['/']⟩

/-- The package suffix `fqName.package().substr(prefix.length())` with the normalized prefix
(line 159): drop that many leading characters from the package,
unconditionally. -/
def pkgSuffix (rawRoot : String) (package : String) : String :=
  ⟨package.data.drop (normPfx rawRoot).data.length⟩

/-- Replace every dot by a path separator (the segment loop of
lines 166-173 appends each dot-separated segment followed by `/`). -/
def dotsToSlashes : List Char → List Char
  | [] => []
  | c :: t => (if c = '.' then '/' else c) :: dotsToSlashes t

/-- Length of the text after the last dot (the final segment the loop leaves
for lines 174-176). -/
def lastSegLen (cs : List Char) : Nat :=
  (cs.reverse.takeWhile (fun c => !(c == '.'))).length

/-- The segment loop of lines 166-176: every dot-separated segment of the
package suffix becomes a directory component followed by `/`;
`CHECK_LT(startPos + 1, packageSuffix.length())` demands that the final
segment have at least two characters, otherwise the process aborts. -/
def dirsOfSuffix (sfx : String) : Res String :=
  if 2 ≤ lastSegLen sfx.data then .ok ⟨dotsToSlashes sfx.data ++ ['/']⟩
  else .abort

/-- Leading-marker test `version.find('@') == 0`: the version string starts
with the version marker. -/
def headIsAt (s : String) : Bool :=
  match s.data with
  | c :: _ => c == '@'
  | [] => false

/-- Drop the first `n` characters (`substr(n)`). -/
def strDrop (s : String) (n : Nat) : String := ⟨s.data.drop n⟩

/-- Translation of `Coordinator::getPackagePath` (lines 141-183): locate the registry entry,
normalize prefix and root, turn the remaining package segments into directory
components, and append the version without its leading marker
(`CHECK_EQ(fqName.version().find('@'), 0u)` aborts otherwise). -/
def Coordinator.getPackagePath (co : Coordinator) (fq : FQName)
    (relative : Bool) : Res String :=
  match co.findPackageRoot fq with
  | .abort => .abort
  | .ok i =>
    let root := normRoot (co.packageRootPaths.getD i "")
    match dirsOfSuffix (pkgSuffix (co.packageRoots.getD i "") fq.package) with
    | .abort => .abort
    | .ok dirs =>
      if headIsAt fq.version then
        .ok ((if relative then "" else root) ++ dirs ++ strDrop fq.version 1 ++ "/")
      else .abort

/-- The identity validation of lines 64-96: declared package and version must
match the request; a declared interface demands a non-`"types"` request with
the same local name; no declared interface demands a `"types"` request. -/
def validParse (fd : FileData) (fq : FQName) : Bool :=
  fd.pkg == fq.package && fd.ver == fq.version &&
    (match fd.iface with
     | some ifaceName => !(fq.name == "types") && ifaceName == fq.name
     | none => fq.name == "types")

/-- Body of `Coordinator::parse` (lines 24-108) with the recursive resolution
of the implicit `types` import abstracted as the `recurTypes` parameter:
`CHECK(fqName.isFullyQualified())`; return the stored value on a cache hit;
otherwise insert the null placeholder, resolve the implicit `types` sibling
when the local name is not `"types"` (its result is discarded), build the
source path as the package path plus the local name plus `".hal"`, allocate a
fresh `AST`, invoke the external parser, validate, and on success store and
return the parsed module; both parse failure and validation failure delete
the allocation and return the null result, leaving the placeholder entry in
the cache. -/
def parseCore (co : Coordinator) (o : Oracle)
    (recurTypes : CState → FQName → Res (Option ASTData × CState))
    (s : CState) (fq : FQName) : Res (Option ASTData × CState) :=
  if !fq.isFullyQualified then .abort
  else
    match cacheGet s.cache fq with
    | some v => .ok (v, s)
    | none =>
      let s1 : CState := { s with cache := cacheAdd s.cache fq none }
      let afterTypes : Res CState :=
        if fq.name == "types" then .ok s1
        else
          match recurTypes s1 ⟨fq.package, fq.version, "types"⟩ with
          | .abort => .abort
          | .ok (_, s') => .ok s'
      match afterTypes with
      | .abort => .abort
      | .ok s2 =>
        match co.getPackagePath fq false with
        | .abort => .abort
        | .ok pp =>
          let path := pp ++ fq.name ++ ".hal"
          let s3 : CState :=
            { s2 with
              parserCalls := s2.parserCalls ++ [path]
              nextId := s2.nextId + 1 }
          match o path with
          | none => .ok (none, s3)
          | some fd =>
            if validParse fd fq then
              let ast : ASTData := ⟨s2.nextId, fd.pkg, fd.ver, fd.iface, fd.typeTable⟩
              .ok (some ast, { s3 with cache := cacheAdd s3.cache fq (some ast) })
            else .ok (none, s3)

/-- Translation of `Coordinator::parse` specialised to requests whose recursive `types`
resolution never fires (the implicit import itself has local name `"types"`,
so its resolution performs no recursive call; the unused recursion parameter
is a dummy). -/
def Coordinator.parseTypesLevel (co : Coordinator) (o : Oracle)
    (s : CState) (fq : FQName) : Res (Option ASTData × CState) :=
  parseCore co o (fun _ _ => .abort) s fq

/-- Translation of `Coordinator::parse` (lines 24-108).  The single recursive call always
has local name `"types"`, and the `"types"` branch performs no recursive
call, so the recursion is instantiated explicitly at its bounded depth. -/
def Coordinator.parse (co : Coordinator) (o : Oracle)
    (s : CState) (fq : FQName) : Res (Option ASTData × CState) :=
  parseCore co o (co.parseTypesLevel o) s fq

/-- The text of the local name before its first dot (lines 189-195). -/
def topTypeOf (name : String) : String :=
  ⟨name.data.takeWhile (fun c => !(c == '.'))⟩

/-- The sibling identifier holding the interface file for a (possibly nested)
type name. -/
def ifaceKey (fq : FQName) : FQName :=
  ⟨fq.package, fq.version, topTypeOf fq.name⟩

/-- The sibling identifier of the package's shared-types module. -/
def typesKey (fq : FQName) : FQName :=
  ⟨fq.package, fq.version, "types"⟩

/-- Modelled from the spec: `AST::lookupTypeInternal` (module boundary
`lookupLocal(name) -> Option TypeHandle`; `AST.h` is outside the sources) as
an association-list lookup in the module's type table.  The reference-count
increment of `Type::ref()` is not observable in this model. -/
def lookupTypeInternal (a : ASTData) (n : String) : Option Nat :=
  List.lookup n a.typeTable

/-- Translation of `Coordinator::lookupType` (lines 185-227): `CHECK` the name is fully
qualified; if the interface sibling (local name truncated at the first dot)
has a cache entry, `CHECK(ast != NULL)` — a null entry aborts the process —
and consult its table; if that yields nothing, fall back to the `types`
sibling, whose entry may tolerably be null; otherwise the lookup fails with
the null result. -/
def Coordinator.lookupType (s : CState) (fq : FQName) : Res (Option Nat) :=
  if !fq.isFullyQualified then .abort
  else
    let fromIface : Res (Option Nat) :=
      match cacheGet s.cache (ifaceKey fq) with
      | none => .ok none
      | some none => .abort
      | some (some ast) => .ok (lookupTypeInternal ast fq.name)
    match fromIface with
    | .abort => .abort
    | .ok (some t) => .ok (some t)
    | .ok none =>
      match cacheGet s.cache (typesKey fq) with
      | some (some ast) => .ok (lookupTypeInternal ast fq.name)
      | _ => .ok none

/-- Project the parser-call log out of a completed `parse` outcome. -/
def callsOf (r : Res (Option ASTData × CState)) : List String :=
  match r with
  | .ok (_, s) => s.parserCalls
  | .abort => []

/-- Modelled from the spec: source text of one module as the import-aware
engine sees it — the parsed file contents plus the list of modules its import
declarations name.  In the repository the explicit imports are resolved by
the external parser calling back into `Coordinator::parse` while the file is
being parsed; that code is not part of the sources here. -/
structure ModSrc where
  data : FileData
  imports : List FQName
deriving DecidableEq

/-- Modelled from the spec: the set of source files on disk, keyed directly
by the identifier they resolve (path construction is dropped; it is verified
separately against `Coordinator.getPackagePath`). -/
def EnvI : Type := List (FQName × ModSrc)

/-- Import-aware cache: `some ()` marks a resolved module, `none` the null
marker used both as the in-progress placeholder and after a failure. -/
def CacheI : Type := List (FQName × Option Unit)

instance : DecidableEq CacheI := by
  unfold CacheI
  infer_instance

/-- Cache lookup for the import-aware engine. -/
def cacheGetI : CacheI → FQName → Option (Option Unit)
  | [], _ => none
  | (k, v) :: t, f => if k = f then some v else cacheGetI t f

/-- Insert-or-replace for the import-aware engine. -/
def cacheAddI : CacheI → FQName → Option Unit → CacheI
  | [], f, v => [(f, v)]
  | (k, w) :: t, f, v => if k = f then (f, v) :: t else (k, w) :: cacheAddI t f v

/-- Resolve a list of identifiers in order with the given resolver, threading
the cache; the individual results are discarded (each import's failure is
reported at its own site), `none` only when the resolver itself gives up. -/
def foldImports (p : CacheI → FQName → Option (Option Unit × CacheI)) :
    CacheI → List FQName → Option CacheI
  | cache, [] => some cache
  | cache, i :: rest =>
    match p cache i with
    | none => none
    | some (_, c') => foldImports p c' rest

/-- Modelled from the spec: `Coordinator::parse` extended with the recursive
resolution of a module's explicit imports (§4.3 with the parser call-back
made explicit).  Fuel-indexed; `none` is fuel exhaustion, never a real
outcome once the fuel dominates the measure below.  The algorithm is the one
of lines 24-108: return the stored value on a cache hit, insert the null
placeholder before any recursive resolution, resolve the implicit `types`
sibling for non-`"types"` names, look the module up, resolve its list of
explicit module references, validate, and store the success marker. -/
def parseI (env : EnvI) : Nat → CacheI → FQName → Option (Option Unit × CacheI)
  | 0, _, _ => none
  | k + 1, cache, fq =>
    match cacheGetI cache fq with
    | some v => some (v, cache)
    | none =>
      let c1 := cacheAddI cache fq none
      match
        (if fq.name == "types" then some ((none : Option Unit), c1)
         else parseI env k c1 ⟨fq.package, fq.version, "types"⟩) with
      | none => none
      | some (_, c2) =>
        match List.lookup fq env with
        | none => some (none, c2)
        | some m =>
          match foldImports (fun c f => parseI env k c f) c2 m.imports with
          | none => none
          | some c3 =>
            if validParse m.data fq then
              some (some (), cacheAddI c3 fq (some ()))
            else some (none, c3)

/-- Number of identifiers the environment knows that have no cache entry yet:
the measure that bounds the recursion depth of `parseI`. -/
def uncached (env : EnvI) (cache : CacheI) : Nat :=
  (env.map Prod.fst).countP (fun n => (cacheGetI cache n).isNone)

theorem cacheGet_cacheAdd_self (c : Cache) (f : FQName) (v : Option ASTData) :
    cacheGet (cacheAdd c f v) f = some v := by
  induction c with
  | nil => simp [cacheAdd, cacheGet]
  | cons kv t ih =>
    obtain ⟨k, w⟩ := kv
    by_cases hk : k = f
    · simp [cacheAdd, hk, cacheGet]
    · simp [cacheAdd, hk, cacheGet, ih]

theorem cacheGet_cacheAdd_ne (c : Cache) (f j : FQName) (v : Option ASTData)
    (hj : j ≠ f) : cacheGet (cacheAdd c f v) j = cacheGet c j := by
  have hfj : f ≠ j := Ne.symm hj
  induction c with
  | nil => simp [cacheAdd, cacheGet, hfj]
  | cons kv t ih =>
    obtain ⟨k, w⟩ := kv
    by_cases hk : k = f
    · subst hk
      simp [cacheAdd, cacheGet, hfj]
    · simp [cacheAdd, hk, cacheGet, ih]

theorem getPackagePath_name_irrel (co : Coordinator) (p v n n' : String)
    (rel : Bool) :
    co.getPackagePath ⟨p, v, n⟩ rel = co.getPackagePath ⟨p, v, n'⟩ rel := rfl

theorem getLastD_append_single (l : List String) (a d : String) :
    (l ++ [a]).getLastD d = a := by
  induction l generalizing d with
  | nil => rfl
  | cons x t ih =>
    rw [List.cons_append, List.getLastD_cons]
    exact ih x

theorem parseTypesLevel_ok {co : Coordinator} {o : Oracle} {s : CState}
    {tfq : FQName} {rT : Option ASTData} {sT : CState}
    (h : co.parseTypesLevel o s tfq = .ok (rT, sT)) :
    cacheGet sT.cache tfq = some rT ∧
      (∀ j, j ≠ tfq → cacheGet sT.cache j = cacheGet s.cache j) ∧
      ∃ l, sT.parserCalls = s.parserCalls ++ l := by
  unfold Coordinator.parseTypesLevel parseCore at h
  cases hfq : tfq.isFullyQualified with
  | false => simp [hfq] at h
  | true =>
    simp only [hfq] at h
    cases hc : cacheGet s.cache tfq with
    | some v =>
      simp only [hc] at h
      cases h
      exact ⟨hc, fun j _ => rfl, [], by simp⟩
    | none =>
      simp only [hc] at h
      cases hname : (tfq.name == "types") with
      | false => simp [hname] at h
      | true =>
        simp only [hname] at h
        cases hpp : co.getPackagePath tfq false with
        | abort => simp [hpp] at h
        | ok pp =>
          simp only [hpp] at h
          cases ho : o (pp ++ tfq.name ++ ".hal") with
          | none =>
            simp only [ho] at h
            cases h
            refine ⟨?_, ?_, ?_⟩
            · exact cacheGet_cacheAdd_self _ _ _
            · intro j hj
              exact cacheGet_cacheAdd_ne _ _ _ _ hj
            · exact ⟨_, rfl⟩
          | some fd =>
            simp only [ho] at h
            cases hv : validParse fd tfq with
            | true =>
              simp only [hv, if_true] at h
              cases h
              refine ⟨?_, ?_, ?_⟩
              · exact cacheGet_cacheAdd_self _ _ _
              · intro j hj
                rw [cacheGet_cacheAdd_ne _ _ _ _ hj, cacheGet_cacheAdd_ne _ _ _ _ hj]
              · exact ⟨_, rfl⟩
            | false =>
              simp only [hv, if_false] at h
              cases h
              refine ⟨?_, ?_, ?_⟩
              · exact cacheGet_cacheAdd_self _ _ _
              · intro j hj
                exact cacheGet_cacheAdd_ne _ _ _ _ hj
              · exact ⟨_, rfl⟩

theorem parse_ok_cache {co : Coordinator} {o : Oracle} {s : CState} {fq : FQName}
    {r : Option ASTData} {s' : CState}
    (h : co.parse o s fq = .ok (r, s')) :
    fq.isFullyQualified = true ∧ cacheGet s'.cache fq = some r := by
  unfold Coordinator.parse parseCore at h
  cases hfq : fq.isFullyQualified with
  | false => simp [hfq] at h
  | true =>
    refine ⟨rfl, ?_⟩
    simp only [hfq] at h
    cases hc : cacheGet s.cache fq with
    | some v =>
      simp only [hc] at h
      cases h
      exact hc
    | none =>
      simp only [hc] at h
      cases hname : (fq.name == "types") with
      | true =>
        simp only [hname] at h
        cases hpp : co.getPackagePath fq false with
        | abort => simp [hpp] at h
        | ok pp =>
          simp only [hpp] at h
          cases ho : o (pp ++ fq.name ++ ".hal") with
          | none =>
            simp only [ho] at h
            cases h
            exact cacheGet_cacheAdd_self _ _ _
          | some fd =>
            simp only [ho] at h
            cases hv : validParse fd fq with
            | true =>
              simp only [hv, if_true] at h
              cases h
              exact cacheGet_cacheAdd_self _ _ _
            | false =>
              simp only [hv, if_false] at h
              cases h
              exact cacheGet_cacheAdd_self _ _ _
      | false =>
        simp only [hname] at h
        cases ht : co.parseTypesLevel o { s with cache := cacheAdd s.cache fq none }
            ⟨fq.package, fq.version, "types"⟩ with
        | abort => simp [ht] at h
        | ok p =>
          obtain ⟨rT, sT⟩ := p
          simp only [ht] at h
          have hne : fq ≠ (⟨fq.package, fq.version, "types"⟩ : FQName) := by
            intro he
            have hn : fq.name = "types" := by rw [he]
            rw [hn] at hname
            simp at hname
          have hframe := (parseTypesLevel_ok ht).2.1 fq hne
          rw [cacheGet_cacheAdd_self] at hframe
          cases hpp : co.getPackagePath fq false with
          | abort => simp [hpp] at h
          | ok pp =>
            simp only [hpp] at h
            cases ho : o (pp ++ fq.name ++ ".hal") with
            | none =>
              simp only [ho] at h
              cases h
              exact hframe
            | some fd =>
              simp only [ho] at h
              cases hv : validParse fd fq with
              | true =>
                simp only [hv, if_true] at h
                cases h
                exact cacheGet_cacheAdd_self _ _ _
              | false =>
                simp only [hv, if_false] at h
                cases h
                exact hframe

theorem getPackagePath_eq_of (co : Coordinator) (fq fq' : FQName)
    (hp : fq.package = fq'.package) (hv : fq.version = fq'.version)
    (rel : Bool) : co.getPackagePath fq rel = co.getPackagePath fq' rel := by
  unfold Coordinator.getPackagePath Coordinator.findPackageRoot
  rw [hp, hv]

theorem parseTypesLevel_exists {co : Coordinator} {o : Oracle} {s : CState}
    {tfq : FQName} {pp : String}
    (hn : tfq.name = "types") (hfq : tfq.isFullyQualified = true)
    (hpp : co.getPackagePath tfq false = .ok pp) :
    ∃ rT sT, co.parseTypesLevel o s tfq = .ok (rT, sT) := by
  unfold Coordinator.parseTypesLevel parseCore
  simp only [hfq]
  cases hc : cacheGet s.cache tfq with
  | some v =>
    simp only [hc]
    exact ⟨v, s, rfl⟩
  | none =>
    simp only [hc, hn, hpp]
    cases ho : o (pp ++ "types" ++ ".hal") with
    | none =>
      simp only [ho]
      exact ⟨_, _, rfl⟩
    | some fd =>
      simp only [ho]
      cases hv : validParse fd tfq with
      | true =>
        simp only [hv, if_true]
        exact ⟨_, _, rfl⟩
      | false =>
        exact ⟨_, _, rfl⟩

/-- Success test of the validated parse of a file: the parser succeeded and
the identity validation passed. -/
def validOf (x : Option FileData) (fq : FQName) : Bool :=
  match x with
  | none => false
  | some fd => validParse fd fq

theorem parse_uncached_spec {co : Coordinator} {o : Oracle} {s : CState}
    {fq : FQName} {pp : String}
    (h1 : fq.isFullyQualified = true)
    (h2 : cacheGet s.cache fq = none)
    (h3 : co.getPackagePath fq false = .ok pp) :
    ∃ r s', co.parse o s fq = .ok (r, s') ∧
      r.isSome = validOf (o (pp ++ fq.name ++ ".hal")) fq ∧
      s'.parserCalls.getLastD "" = pp ++ fq.name ++ ".hal" ∧
      (fq.name ≠ "types" → (cacheGet s'.cache (typesKey fq)).isSome = true) := by
  unfold Coordinator.parse parseCore
  simp only [h1, h2]
  cases hname : (fq.name == "types") with
  | true =>
    have hnt : fq.name = "types" := eq_of_beq hname
    simp only [hname, h3]
    cases ho : o (pp ++ fq.name ++ ".hal") with
    | none =>
      simp only [ho]
      refine ⟨_, _, rfl, ?_, ?_, ?_⟩
      · simp [validOf, ho]
      · exact getLastD_append_single _ _ _
      · intro hcon
        exact absurd hnt hcon
    | some fd =>
      simp only [ho]
      cases hv : validParse fd fq with
      | true =>
        simp only [hv, if_true]
        refine ⟨_, _, rfl, ?_, ?_, ?_⟩
        · simp [validOf, ho, hv]
        · exact getLastD_append_single _ _ _
        · intro hcon
          exact absurd hnt hcon
      | false =>
        refine ⟨_, _, rfl, ?_, ?_, ?_⟩
        · simp [validOf, ho, hv]
        · exact getLastD_append_single _ _ _
        · intro hcon
          exact absurd hnt hcon
  | false =>
    have hns : fq.name ≠ "types" := by
      intro hn
      rw [hn] at hname
      simp at hname
    have htfq : (⟨fq.package, fq.version, "types"⟩ : FQName).isFullyQualified = true := by
      unfold FQName.isFullyQualified at h1 ⊢
      simp only [Bool.and_eq_true] at h1
      simp [h1.1.1, h1.1.2]
    have htpp : co.getPackagePath ⟨fq.package, fq.version, "types"⟩ false = .ok pp := by
      rw [← getPackagePath_eq_of co fq ⟨fq.package, fq.version, "types"⟩ rfl rfl false]
      exact h3
    obtain ⟨rT, sT, ht⟩ :=
      parseTypesLevel_exists (o := o) (s := { s with cache := cacheAdd s.cache fq none })
        rfl htfq htpp
    have hTspec := parseTypesLevel_ok ht
    have hTentry : (cacheGet sT.cache (typesKey fq)).isSome = true := by
      simp only [typesKey]
      rw [hTspec.1]
      rfl
    simp only [hname, ht, h3]
    cases ho : o (pp ++ fq.name ++ ".hal") with
    | none =>
      simp only [ho]
      refine ⟨_, _, rfl, ?_, ?_, fun _ => hTentry⟩
      · simp [validOf, ho]
      · exact getLastD_append_single _ _ _
    | some fd =>
      simp only [ho]
      cases hv : validParse fd fq with
      | true =>
        have hne : typesKey fq ≠ fq := by
          intro he
          have hn2 : fq.name = "types" := by
            rw [← he]
            rfl
          exact hns hn2
        simp only [hv, if_true]
        refine ⟨_, _, rfl, ?_, ?_, fun _ => ?_⟩
        · simp [validOf, ho, hv]
        · exact getLastD_append_single _ _ _
        · simp only [cacheGet_cacheAdd_ne _ _ _ _ hne]
          exact hTentry
      | false =>
        refine ⟨_, _, rfl, ?_, ?_, fun _ => hTentry⟩
        · simp [validOf, ho, hv]
        · exact getLastD_append_single _ _ _

theorem cacheGetI_cacheAddI_self (c : CacheI) (f : FQName) (v : Option Unit) :
    cacheGetI (cacheAddI c f v) f = some v := by
  induction c with
  | nil => simp [cacheAddI, cacheGetI]
  | cons kv t ih =>
    obtain ⟨k, w⟩ := kv
    by_cases hk : k = f
    · simp [cacheAddI, hk, cacheGetI]
    · simp [cacheAddI, hk, cacheGetI, ih]

theorem cacheGetI_cacheAddI_ne (c : CacheI) (f j : FQName) (v : Option Unit)
    (hj : j ≠ f) : cacheGetI (cacheAddI c f v) j = cacheGetI c j := by
  have hfj : f ≠ j := Ne.symm hj
  induction c with
  | nil => simp [cacheAddI, cacheGetI, hfj]
  | cons kv t ih =>
    obtain ⟨k, w⟩ := kv
    by_cases hk : k = f
    · subst hk
      simp [cacheAddI, cacheGetI, hfj]
    · simp [cacheAddI, hk, cacheGetI, ih]

theorem cacheAddI_le (c : CacheI) (f : FQName) (v : Option Unit) (n : FQName)
    (hn : (cacheGetI c n).isSome = true) :
    (cacheGetI (cacheAddI c f v) n).isSome = true := by
  by_cases hnf : n = f
  · subst hnf
    rw [cacheGetI_cacheAddI_self]
    rfl
  · rw [cacheGetI_cacheAddI_ne _ _ _ _ hnf]
    exact hn

theorem foldImports_mono {p : CacheI → FQName → Option (Option Unit × CacheI)}
    (hp : ∀ {c f r c'}, p c f = some (r, c') →
      ∀ n, (cacheGetI c n).isSome = true → (cacheGetI c' n).isSome = true) :
    ∀ {l : List FQName} {c c'' : CacheI}, foldImports p c l = some c'' →
      ∀ n, (cacheGetI c n).isSome = true → (cacheGetI c'' n).isSome = true := by
  intro l
  induction l with
  | nil =>
    intro c c'' h n hn
    unfold foldImports at h
    cases h
    exact hn
  | cons i rest ih =>
    intro c c'' h n hn
    unfold foldImports at h
    cases hpi : p c i with
    | none => rw [hpi] at h; cases h
    | some q =>
      obtain ⟨r, c'⟩ := q
      rw [hpi] at h
      exact ih h n (hp hpi n hn)

theorem parseI_mono (env : EnvI) :
    ∀ (k : Nat) {c : CacheI} {f : FQName} {r : Option Unit} {c' : CacheI},
      parseI env k c f = some (r, c') →
      ∀ n, (cacheGetI c n).isSome = true → (cacheGetI c' n).isSome = true := by
  intro k
  induction k with
  | zero =>
    intro c f r c' h
    simp [parseI] at h
  | succ k ih =>
    intro c f r c' h n hn
    simp only [parseI] at h
    cases hc : cacheGetI c f with
    | some v =>
      simp only [hc] at h
      cases h
      exact hn
    | none =>
      simp only [hc] at h
      cases hname : (f.name == "types") with
      | true =>
        simp only [hname] at h
        simp only [if_true] at h
        cases henv : List.lookup f env with
        | none =>
          simp only [henv] at h
          cases h
          exact cacheAddI_le _ _ _ _ hn
        | some m =>
          simp only [henv] at h
          cases hfi : foldImports (fun c f => parseI env k c f)
              (cacheAddI c f none) m.imports with
          | none => simp only [hfi] at h; cases h
          | some c3 =>
            simp only [hfi] at h
            have h3 : (cacheGetI c3 n).isSome = true :=
              foldImports_mono (fun {c f r c'} hp => ih hp) hfi n
                (cacheAddI_le _ _ _ _ hn)
            cases hv : validParse m.data f with
            | true =>
              simp only [hv] at h
              simp only [if_true] at h
              cases h
              exact cacheAddI_le _ _ _ _ h3
            | false =>
              simp only [hv] at h
              simp only [Bool.false_eq_true, if_false] at h
              cases h
              exact h3
      | false =>
        simp only [hname] at h
        simp only [Bool.false_eq_true, if_false] at h
        cases hty : parseI env k (cacheAddI c f none)
            ⟨f.package, f.version, "types"⟩ with
        | none => simp only [hty] at h; cases h
        | some q =>
          obtain ⟨rT, c2⟩ := q
          simp only [hty] at h
          have h2 : (cacheGetI c2 n).isSome = true :=
            ih hty n (cacheAddI_le _ _ _ _ hn)
          cases henv : List.lookup f env with
          | none =>
            simp only [henv] at h
            cases h
            exact h2
          | some m =>
            simp only [henv] at h
            cases hfi : foldImports (fun c f => parseI env k c f) c2 m.imports with
            | none => simp only [hfi] at h; cases h
            | some c3 =>
              simp only [hfi] at h
              have h3 : (cacheGetI c3 n).isSome = true :=
                foldImports_mono (fun {c f r c'} hp => ih hp) hfi n h2
              cases hv : validParse m.data f with
              | true =>
                simp only [hv] at h
                simp only [if_true] at h
                cases h
                exact cacheAddI_le _ _ _ _ h3
              | false =>
                simp only [hv] at h
                simp only [Bool.false_eq_true, if_false] at h
                cases h
                exact h3

theorem countP_le_of_imp {α : Type} (l : List α) (p q : α → Bool)
    (h : ∀ a, q a = true → p a = true) : l.countP q ≤ l.countP p := by
  induction l with
  | nil => simp [List.countP_nil]
  | cons b t ih =>
    rw [List.countP_cons, List.countP_cons]
    cases hq : q b with
    | true => simp [h b hq, ih]
    | false =>
      cases hp : p b with
      | true => simp; omega
      | false => simp [ih]

theorem countP_lt_of_mem {α : Type} {l : List α} {p q : α → Bool}
    (h : ∀ a, q a = true → p a = true) {a0 : α} (ha : a0 ∈ l)
    (hq : q a0 = false) (hp : p a0 = true) : l.countP q < l.countP p := by
  induction l with
  | nil => cases ha
  | cons b t ih =>
    rw [List.countP_cons, List.countP_cons]
    rcases List.mem_cons.mp ha with hb | ht
    · subst hb
      rw [hq, hp]
      simp
      have := countP_le_of_imp t p q h
      omega
    · have hlt := ih ht
      cases hqb : q b with
      | true =>
        rw [h b hqb]
        simpa using hlt
      | false =>
        cases hpb : p b with
        | true => simp; omega
        | false => simpa using hlt

theorem uncached_le_of (env : EnvI) (c c' : CacheI)
    (h : ∀ n, (cacheGetI c n).isSome = true → (cacheGetI c' n).isSome = true) :
    uncached env c' ≤ uncached env c := by
  unfold uncached
  apply countP_le_of_imp
  intro a ha
  cases hg : cacheGetI c a with
  | none => simp [hg]
  | some v =>
    have := h a (by simp [hg])
    cases hg' : cacheGetI c' a with
    | none => rw [hg'] at this; cases this
    | some w => rw [hg'] at ha; cases ha

theorem uncached_addI_lt (env : EnvI) {c : CacheI} {f : FQName}
    (hf : f ∈ env.map Prod.fst) (hc : cacheGetI c f = none) (v : Option Unit) :
    uncached env (cacheAddI c f v) < uncached env c := by
  unfold uncached
  apply countP_lt_of_mem
  · intro a ha
    by_cases haf : a = f
    · subst haf
      simp [hc]
    · rw [cacheGetI_cacheAddI_ne _ _ _ _ haf] at ha
      exact ha
  · exact hf
  · rw [cacheGetI_cacheAddI_self]
    rfl
  · simp [hc]

theorem lookup_mem_keys {env : EnvI} {f : FQName} {m : ModSrc}
    (h : List.lookup f env = some m) : f ∈ env.map Prod.fst := by
  induction env with
  | nil => cases h
  | cons kv t ih =>
    obtain ⟨k, w⟩ := kv
    simp only [List.lookup] at h
    by_cases hk : f = k
    · subst hk
      simp
    · have hbeq : (f == k) = false := by simp [hk]
      simp only [hbeq] at h
      simp only [List.map_cons, List.mem_cons]
      right
      exact ih h

/-- One extra level of fuel needed when the implicit `types` sibling must be
resolved first. -/
def eFQ (f : FQName) : Nat := if f.name == "types" then 0 else 1

theorem eFQ_le_one (f : FQName) : eFQ f ≤ 1 := by
  unfold eFQ
  cases h : (f.name == "types") with
  | true => simp
  | false => simp

theorem foldImports_suff (env : EnvI) (k : Nat)
    (ihS : ∀ c f, 2 * uncached env c + 2 + eFQ f ≤ k →
      (parseI env k c f).isSome = true)
    (U : Nat) (hk : 2 * U + 3 ≤ k) :
    ∀ (l : List FQName) (c : CacheI), uncached env c ≤ U →
      (foldImports (fun c f => parseI env k c f) c l).isSome = true := by
  intro l
  induction l with
  | nil =>
    intro c _
    unfold foldImports
    rfl
  | cons i rest ih =>
    intro c hU
    have hb : 2 * uncached env c + 2 + eFQ i ≤ k := by
      have := eFQ_le_one i
      omega
    have h1 := ihS c i hb
    obtain ⟨q, hq⟩ := Option.isSome_iff_exists.mp h1
    obtain ⟨r, c'⟩ := q
    unfold foldImports
    simp only [hq]
    apply ih
    have hmono : ∀ n, (cacheGetI c n).isSome = true → (cacheGetI c' n).isSome = true :=
      parseI_mono env k hq
    have := uncached_le_of env c c' hmono
    omega

theorem parseI_suff (env : EnvI) :
    ∀ (k : Nat) (c : CacheI) (f : FQName),
      2 * uncached env c + 2 + eFQ f ≤ k → (parseI env k c f).isSome = true := by
  intro k
  induction k with
  | zero =>
    intro c f h
    exact absurd h (by omega)
  | succ k ih =>
    intro c f h
    simp only [parseI]
    cases hc : cacheGetI c f with
    | some v => simp only [hc]; rfl
    | none =>
      simp only [hc]
      have hle1 : uncached env (cacheAddI c f none) ≤ uncached env c :=
        uncached_le_of env c _ (fun n hn => cacheAddI_le c f none n hn)
      cases hname : (f.name == "types") with
      | true =>
        have he : eFQ f = 0 := by simp [eFQ, hname]
        simp only [hname, if_true]
        cases henv : List.lookup f env with
        | none => simp only [henv]; rfl
        | some m =>
          simp only [henv]
          have hmem : f ∈ env.map Prod.fst := lookup_mem_keys henv
          have hlt : uncached env (cacheAddI c f none) < uncached env c :=
            uncached_addI_lt env hmem hc none
          have hfold : (foldImports (fun c f => parseI env k c f)
              (cacheAddI c f none) m.imports).isSome = true := by
            apply foldImports_suff env k ih (uncached env (cacheAddI c f none))
            · omega
            · exact le_refl _
          obtain ⟨c3, hc3⟩ := Option.isSome_iff_exists.mp hfold
          simp only [hc3]
          cases hv : validParse m.data f with
          | true => simp only [hv, if_true]; rfl
          | false => simp only [hv, Bool.false_eq_true, if_false]; rfl
      | false =>
        have he : eFQ f = 1 := by simp [eFQ, hname]
        simp only [hname, Bool.false_eq_true, if_false]
        have hbT : 2 * uncached env (cacheAddI c f none) + 2 +
            eFQ ⟨f.package, f.version, "types"⟩ ≤ k := by
          have heT : eFQ ⟨f.package, f.version, "types"⟩ = 0 := by simp [eFQ]
          omega
        have hT := ih (cacheAddI c f none) ⟨f.package, f.version, "types"⟩ hbT
        obtain ⟨q, hq⟩ := Option.isSome_iff_exists.mp hT
        obtain ⟨rT, c2⟩ := q
        simp only [hq]
        have hle2 : uncached env c2 ≤ uncached env (cacheAddI c f none) :=
          uncached_le_of env _ _ (parseI_mono env k hq)
        cases henv : List.lookup f env with
        | none => simp only [henv]; rfl
        | some m =>
          simp only [henv]
          have hmem : f ∈ env.map Prod.fst := lookup_mem_keys henv
          have hlt : uncached env (cacheAddI c f none) < uncached env c :=
            uncached_addI_lt env hmem hc none
          have hfold : (foldImports (fun c f => parseI env k c f)
              c2 m.imports).isSome = true := by
            apply foldImports_suff env k ih (uncached env c2)
            · omega
            · exact le_refl _
          obtain ⟨c3, hc3⟩ := Option.isSome_iff_exists.mp hfold
          simp only [hc3]
          cases hv : validParse m.data f with
          | true => simp only [hv, if_true]; rfl
          | false => simp only [hv, Bool.false_eq_true, if_false]; rfl

theorem findIdxO_eq_none {α : Type} {p : α → Bool} {l : List α}
    (h : ∀ a ∈ l, p a = false) : findIdxO p l = none := by
  induction l with
  | nil => rfl
  | cons a t ih =>
    unfold findIdxO
    simp only [h a (by simp)]
    rw [ih (fun b hb => h b (List.mem_cons_of_mem a hb))]
    rfl

theorem findIdxO_some {α : Type} {p : α → Bool} {l : List α} {i : Nat} (d : α)
    (h : findIdxO p l = some i) : p (l.getD i d) = true := by
  induction l generalizing i with
  | nil => cases h
  | cons a t ih =>
    unfold findIdxO at h
    cases hp : p a with
    | true =>
      simp only [hp, if_true] at h
      cases h
      simpa [List.getD] using hp
    | false =>
      simp only [hp, Bool.false_eq_true, if_false] at h
      cases hft : findIdxO p t with
      | none => rw [hft] at h; cases h
      | some j =>
        rw [hft] at h
        simp only [Option.map_some'] at h
        cases h
        simpa [List.getD] using ih hft

-- Concrete fixtures used by the claim witnesses and counterexamples.
def coA : Coordinator := ⟨["r"], ["a."]⟩
def iTypes : FQName := ⟨"a.bc", "@1.0", "types"⟩
def oNone : Oracle := fun _ => none
def oTypesX : Oracle := fun p =>
  if p = "r/bc/1.0/types.hal" then some ⟨"a.bc", "@1.0", none, [("X", 5)]⟩ else none
def cs0 : CState := ⟨[], [], 0⟩
def csFail : CState := ⟨[(iTypes, none)], ["r/bc/1.0/types.hal"], 1⟩
def astX : ASTData := ⟨0, "a.bc", "@1.0", none, [("X", 5)]⟩
def csOk : CState := ⟨[(iTypes, some astX)], ["r/bc/1.0/types.hal"], 1⟩

/-- C1, counterexample: the claim that `resolve` distinguishes the
`InProgress` and `Absent` cache states fails on the code.  After a failed
resolution of a concrete identifier the cache holds exactly the null-marker
entry `[(iTypes, none)]`, which is literally the same cache produced by the
pre-resolution placeholder insertion (second conjunct), so the state recording
a prior failure and the state of an in-progress resolution are equal; a
re-request returns the same null result in both — even with an oracle that
could now parse the file — so no `CircularImport`/`PriorFailure` distinction
is observable by the caller. -/
theorem c1_counterexample :
    coA.parse oNone cs0 iTypes = .ok (none, csFail) ∧
    csFail.cache = cacheAdd cs0.cache iTypes none ∧
    coA.parse oTypesX csFail iTypes = .ok (none, csFail) :=
  ⟨by decide, by decide, by decide⟩

/-- C1 (amended): for every identifier that already has a cache entry when
`resolve` is called, `parse` returns the stored value and leaves the state
unchanged — a reference to the module if the entry holds one, and the single
null marker (which stands both for an in-progress resolution and for a prior
failure, indistinguishably) otherwise. -/
theorem c1_cached_entry_behaviour (co : Coordinator) (o : Oracle) (s : CState)
    (fq : FQName) (v : Option ASTData) (h1 : fq.isFullyQualified = true)
    (h2 : cacheGet s.cache fq = some v) : co.parse o s fq = .ok (v, s) := by
  unfold Coordinator.parse parseCore
  simp only [h1, h2]
  rfl

/-- C1, witness: the amended claim evaluated at a concrete resolved
entry. -/
theorem c1_cached_entry_behaviour_witness :
    coA.parse oTypesX csOk iTypes = .ok (some astX, csOk) :=
  c1_cached_entry_behaviour coA oTypesX csOk iTypes (some astX) (by decide) (by decide)

/-- C2: resolution terminates on every module environment, including
environments whose imports form a cycle (two modules importing each other
directly or via their package's `types` module).  Because the null
placeholder is inserted for an identifier before any recursive resolution, a
resolution chain that returns to an identifier already being resolved hits
the cache and returns immediately; formally, fuel exceeding twice the number
of environment identifiers not yet cached plus three is never exhausted, for
every environment, cache and identifier. -/
theorem c2_parseI_terminates (env : EnvI) (k : Nat) (c : CacheI) (f : FQName)
    (h : 2 * uncached env c + 3 ≤ k) : (parseI env k c f).isSome = true := by
  apply parseI_suff
  have := eFQ_le_one f
  omega

def fqIA : FQName := ⟨"p.qq", "@1.0", "IA"⟩
def fqIB : FQName := ⟨"p.qq", "@1.0", "IB"⟩
def envCyc : EnvI :=
  [(fqIA, ⟨⟨"p.qq", "@1.0", some "IA", []⟩, [fqIB]⟩),
   (fqIB, ⟨⟨"p.qq", "@1.0", some "IB", []⟩, [fqIA]⟩)]

/-- C2, witness: the termination bound discharged on a concrete two-module
cycle of imports (`IA` imports `IB` and `IB` imports `IA`). -/
theorem c2_parseI_terminates_witness :
    2 * uncached envCyc ([] : CacheI) + 3 ≤ 7 ∧
      (parseI envCyc 7 ([] : CacheI) fqIA).isSome = true :=
  ⟨by decide, c2_parseI_terminates envCyc 7 ([] : CacheI) fqIA (by decide)⟩

/-- C3: `resolve` is idempotent: if a call completes with a result and a
final state, calling it again with the same identifier returns the very same
result (the identical cached `AST` object on success, the same null result
after a failure) and the identical state — in particular the log of parser
invocations does not grow, so the parser is not invoked again. -/
theorem c3_parse_idempotent {co : Coordinator} {o : Oracle} {s : CState}
    {fq : FQName} {r : Option ASTData} {s' : CState}
    (h : co.parse o s fq = .ok (r, s')) : co.parse o s' fq = .ok (r, s') := by
  obtain ⟨hfq, hc⟩ := parse_ok_cache h
  unfold Coordinator.parse parseCore
  simp only [hfq, hc]
  rfl

/-- C3, witness: a concrete successful first call followed by the second
call returning the same object and the same state. -/
theorem c3_parse_idempotent_witness :
    coA.parse oTypesX cs0 iTypes = .ok (some astX, csOk) ∧
      coA.parse oTypesX csOk iTypes = .ok (some astX, csOk) :=
  ⟨by decide, c3_parse_idempotent
    (show coA.parse oTypesX cs0 iTypes = .ok (some astX, csOk) by decide)⟩

def coV : Coordinator := ⟨["vendor/qcom"], ["vendor.qcom"]⟩
def fqNfc : FQName := ⟨"android.hardware.nfc", "@1.0", "INfc"⟩

/-- C4, counterexample: with a registry whose only prefix matches nothing
in the requested package, `findPackageRoot` aborts the process (the fatal
`CHECK(it != mPackageRoots.end())`) instead of returning a `NoMatchingRoot`
error to the caller. -/
theorem c4_counterexample : coV.findPackageRoot fqNfc = .abort := by decide

/-- C4 (amended): when no registry entry's prefix occurs in the requested
identifier's package, `findPackageRoot` hits its fatal check and aborts the
process; no error value is returned to the caller. -/
theorem c4_no_match_aborts (co : Coordinator) (fq : FQName)
    (h1 : (fq.package == "") = false) (h2 : (fq.version == "") = false)
    (h3 : ∀ r ∈ co.packageRoots, occursIn r.data fq.package.data = false) :
    co.findPackageRoot fq = .abort := by
  unfold Coordinator.findPackageRoot
  simp only [h1, h2]
  rw [findIdxO_eq_none h3]
  rfl

/-- C4, witness: the amended claim discharged on a concrete mismatched
registry. -/
theorem c4_no_match_aborts_witness :
    coV.findPackageRoot ⟨"android.hardware.foo", "@1.0", "IFoo"⟩ = .abort :=
  c4_no_match_aborts coV ⟨"android.hardware.foo", "@1.0", "IFoo"⟩
    (by decide) (by decide) (by decide)

def co5 : Coordinator := ⟨["hardware/interfaces"], ["android.hardware"]⟩
def fqDotted : FQName := ⟨"android.hardware.nfc", "@1.0", "Foo.Inner"⟩

/-- C5, counterexample: for the dotted local name `Foo.Inner` the path
handed to the parser ends in `Foo.Inner.hal` — built from the full dotted
name — although the top-level segment is `Foo`, so the claimed truncation to
the segment before the first dot does not happen in `parse`. -/
theorem c5_counterexample :
    callsOf (co5.parse oNone cs0 fqDotted) =
      ["hardware/interfaces/nfc/1.0/types.hal",
       "hardware/interfaces/nfc/1.0/Foo.Inner.hal"] ∧
    topTypeOf fqDotted.name = "Foo" ∧
    ("hardware/interfaces/nfc/1.0/Foo.Inner.hal" : String) ≠
      "hardware/interfaces/nfc/1.0/Foo.hal" :=
  ⟨by decide, by decide, by decide⟩

/-- C5 (amended): for every uncached fully-qualified identifier, the
filename component of the source path handed to the parser is the full local
name (dots included) followed by the `.hal` extension; `parse` performs no
truncation to the top-level segment (only `lookupType` splits at the first
dot). -/
theorem c5_path_uses_full_name {co : Coordinator} {o : Oracle} {s : CState}
    {fq : FQName} {pp : String}
    (h1 : fq.isFullyQualified = true)
    (h2 : cacheGet s.cache fq = none)
    (h3 : co.getPackagePath fq false = .ok pp) :
    ∃ r s', co.parse o s fq = .ok (r, s') ∧
      s'.parserCalls.getLastD "" = pp ++ fq.name ++ ".hal" := by
  obtain ⟨r, s', hp, _, hlast, _⟩ := parse_uncached_spec h1 h2 h3
  exact ⟨r, s', hp, hlast⟩

/-- C5, witness: the amended claim discharged on the concrete dotted
name. -/
theorem c5_path_uses_full_name_witness :
    ∃ r s', co5.parse oNone cs0 fqDotted = .ok (r, s') ∧
      s'.parserCalls.getLastD "" =
        "hardware/interfaces/nfc/1.0/" ++ fqDotted.name ++ ".hal" :=
  c5_path_uses_full_name (by decide) (by decide)
    (show co5.getPackagePath fqDotted false = .ok "hardware/interfaces/nfc/1.0/"
      by decide)

def co6 : Coordinator := ⟨["hardware/interfaces"], ["android.hardware."]⟩
def fq6 : FQName := ⟨"android.hardware.nfc", "@1.0", "INfc"⟩

/-- C6: with registry prefix `"android.hardware."`, root
`"hardware/interfaces"`, identifier package `"android.hardware.nfc"`, version
`"@1.0"` and local name `"INfc"`, the package path resolves to
`hardware/interfaces/nfc/1.0/` (prefix already ends with a dot, root gets its
separator appended, the remaining package segment `nfc` becomes a directory,
the version loses its leading marker) and the file handed to the parser is
`hardware/interfaces/nfc/1.0/INfc.hal`, after the implicit `types.hal`
sibling. -/
theorem c6_path_resolution :
    co6.getPackagePath fq6 false = .ok "hardware/interfaces/nfc/1.0/" ∧
    callsOf (co6.parse oNone cs0 fq6) =
      ["hardware/interfaces/nfc/1.0/types.hal",
       "hardware/interfaces/nfc/1.0/INfc.hal"] :=
  ⟨by decide, by decide⟩

/-- C7: for every uncached identifier whose local name is not `"types"`,
`parse` first resolves the implicit sibling `(package, version, "types")` —
an entry for it exists in the final cache — and the success of the requested
identifier's own resolution is determined solely by the parser's answer on
the identifier's own file together with the identity validation, i.e. a
failure of the implicit import does not make the resolution fail. -/
theorem c7_types_import_best_effort {co : Coordinator} {o : Oracle} {s : CState}
    {fq : FQName} {pp : String}
    (h1 : fq.isFullyQualified = true) (hn : fq.name ≠ "types")
    (h2 : cacheGet s.cache fq = none)
    (h3 : co.getPackagePath fq false = .ok pp) :
    ∃ r s', co.parse o s fq = .ok (r, s') ∧
      r.isSome = validOf (o (pp ++ fq.name ++ ".hal")) fq ∧
      (cacheGet s'.cache (typesKey fq)).isSome = true := by
  obtain ⟨r, s', hp, hsucc, _, hty⟩ := parse_uncached_spec h1 h2 h3
  exact ⟨r, s', hp, hsucc, hty hn⟩

def co7 : Coordinator := ⟨["hw"], ["a."]⟩
def fq7 : FQName := ⟨"a.bc", "@1.0", "IFoo"⟩
def o7 : Oracle := fun p =>
  if p = "hw/bc/1.0/IFoo.hal" then some ⟨"a.bc", "@1.0", some "IFoo", []⟩ else none

/-- C7, witness: a concrete run in which the implicit `types` import fails
(no such file) while the requested interface still resolves. -/
theorem c7_types_import_best_effort_witness :
    ∃ r s', co7.parse o7 cs0 fq7 = .ok (r, s') ∧
      r.isSome = validOf (o7 ("hw/bc/1.0/" ++ fq7.name ++ ".hal")) fq7 ∧
      (cacheGet s'.cache (typesKey fq7)).isSome = true :=
  c7_types_import_best_effort (by decide) (by decide) (by decide)
    (show co7.getPackagePath fq7 false = .ok "hw/bc/1.0/" by decide)

/-- C8: when neither the looked-up name's top-level sibling nor its
`types` sibling has a cache entry, `lookupType` returns the null `NotFound`
result.  `lookupType` is a read-only function of the state: it takes no
parser oracle and returns no modified state, so by construction it can
neither trigger a parse nor alter the cache. -/
theorem c8_lookupType_notFound (s : CState) (fq : FQName)
    (h1 : fq.isFullyQualified = true)
    (h2 : cacheGet s.cache (ifaceKey fq) = none)
    (h3 : cacheGet s.cache (typesKey fq) = none) :
    Coordinator.lookupType s fq = .ok none := by
  unfold Coordinator.lookupType
  simp only [h1, h2, h3]
  rfl

def s8 : CState := ⟨[(⟨"a.bc", "@1.0", "IOther"⟩, none)], [], 0⟩
def fq8 : FQName := ⟨"a.bc", "@1.0", "Foo.Inner"⟩

/-- C8, witness: a lookup for a never-resolved name against a cache
holding only an unrelated entry. -/
theorem c8_lookupType_notFound_witness :
    Coordinator.lookupType s8 fq8 = .ok none :=
  c8_lookupType_notFound s8 fq8 (by decide) (by decide) (by decide)

/-- C9: when the top-level sibling's cache entry holds the null marker (as
left by a failed or still-in-progress resolution), `lookupType` hits the
`CHECK(ast != NULL)` assertion and aborts the process instead of falling back
to the `types` module or returning `NotFound`; in contrast, a null entry for
the `types` sibling in the fallback branch is tolerated and yields the
`NotFound` result. -/
theorem c9_lookupType_null_entry (s1 s2 : CState) (fq : FQName)
    (h1 : fq.isFullyQualified = true) :
    (cacheGet s1.cache (ifaceKey fq) = some none →
      Coordinator.lookupType s1 fq = .abort) ∧
    (cacheGet s2.cache (ifaceKey fq) = none →
      cacheGet s2.cache (typesKey fq) = some none →
      Coordinator.lookupType s2 fq = .ok none) := by
  constructor
  · intro h2
    unfold Coordinator.lookupType
    simp only [h1, h2]
    rfl
  · intro h2 h3
    unfold Coordinator.lookupType
    simp only [h1, h2, h3]
    rfl

def s9a : CState := ⟨[(⟨"a.bc", "@1.0", "Foo"⟩, none)], [], 0⟩
def s9b : CState := ⟨[(⟨"a.bc", "@1.0", "types"⟩, none)], [], 0⟩

/-- C9, witness: the two behaviours at concrete caches — a null top-level
entry aborts, a null `types` entry merely yields the null result. -/
theorem c9_lookupType_null_entry_witness :
    Coordinator.lookupType s9a fq8 = .abort ∧
      Coordinator.lookupType s9b fq8 = .ok none :=
  ⟨(c9_lookupType_null_entry s9a s9b fq8 (by decide)).1 (by decide),
   (c9_lookupType_null_entry s9a s9b fq8 (by decide)).2 (by decide) (by decide)⟩

/-- C10: `findPackageRoot` accepts the registry entry whose text occurs
anywhere in the package as a substring, while the package suffix that
`getPackagePath` turns into directory components is obtained by
unconditionally dropping the first length-of-normalized-prefix characters
from the front of the package (second conjunct, definitional).  When the
matched occurrence starts at position 0 the dropped text is exactly the
normalized prefix, so prefix and suffix reassemble the package (third
conjunct); the final conjunct exhibits a mid-string occurrence (prefix `a.`
inside `xa.a.b`) where the dropped suffix `.a.b` is unrelated to the text
after the occurrence. -/
theorem c10_substring_match_vs_drop (co : Coordinator) (fq : FQName) (i : Nat)
    (h : co.findPackageRoot fq = .ok i) :
    occursIn (co.packageRoots.getD i "").data fq.package.data = true ∧
    pkgSuffix (co.packageRoots.getD i "") fq.package =
      ⟨fq.package.data.drop (normPfx (co.packageRoots.getD i "")).data.length⟩ ∧
    ((normPfx (co.packageRoots.getD i "")).data.isPrefixOf fq.package.data = true →
      normPfx (co.packageRoots.getD i "") ++
        pkgSuffix (co.packageRoots.getD i "") fq.package = fq.package) ∧
    pkgSuffix "a." "xa.a.b" = ".a.b" := by
  refine ⟨?_, rfl, ?_, by decide⟩
  · unfold Coordinator.findPackageRoot at h
    cases hp : (fq.package == "") with
    | true => simp [hp] at h
    | false =>
      simp only [hp] at h
      cases hv : (fq.version == "") with
      | true => simp [hv] at h
      | false =>
        simp only [hv] at h
        cases hidx : findIdxO (fun r => occursIn r.data fq.package.data)
            co.packageRoots with
        | none => simp [hidx] at h
        | some j =>
          simp only [hidx] at h
          cases h
          exact findIdxO_some "" hidx
  · intro hpre
    obtain ⟨t, ht⟩ := List.isPrefixOf_iff_prefix.mp hpre
    have hdata : (normPfx (co.packageRoots.getD i "")).data ++
        fq.package.data.drop (normPfx (co.packageRoots.getD i "")).data.length =
        fq.package.data := by
      conv_lhs => rw [← ht]
      rw [List.drop_left]
      exact ht
    calc normPfx (co.packageRoots.getD i "") ++
          pkgSuffix (co.packageRoots.getD i "") fq.package
        = ⟨(normPfx (co.packageRoots.getD i "")).data ++
            fq.package.data.drop
              (normPfx (co.packageRoots.getD i "")).data.length⟩ := rfl
      _ = ⟨fq.package.data⟩ := by rw [hdata]
      _ = fq.package := rfl

def co10 : Coordinator := ⟨["hardware/interfaces"], ["android.hardware."]⟩
def fq10 : FQName := ⟨"android.hardware.nfc", "@1.0", "INfc"⟩

/-- C10, witness: the relationship discharged at the registry entry
`android.hardware.` and package `android.hardware.nfc`. -/
theorem c10_substring_match_vs_drop_witness :
    occursIn (co10.packageRoots.getD 0 "").data fq10.package.data = true ∧
    pkgSuffix (co10.packageRoots.getD 0 "") fq10.package =
      ⟨fq10.package.data.drop (normPfx (co10.packageRoots.getD 0 "")).data.length⟩ ∧
    ((normPfx (co10.packageRoots.getD 0 "")).data.isPrefixOf fq10.package.data = true →
      normPfx (co10.packageRoots.getD 0 "") ++
        pkgSuffix (co10.packageRoots.getD 0 "") fq10.package = fq10.package) ∧
    pkgSuffix "a." "xa.a.b" = ".a.b" :=
  c10_substring_match_vs_drop co10 fq10 0 (by decide)
